import Mathlib

/-
Verification development for the rspass command-line secret manager.

The sources under review are the CLI crate: src/sync.rs (the sync
coordinator), src/validators.rs (the credential listing and the path
validator used by the command surface) and src/main.rs (the command
surface).  The vault core crate (rspass_core: record codec, vault CRUD)
is not part of the reviewed sources; where a property depends on it, the
corresponding definition is modelled from the design document and says so
in its doc comment.

Strings are handled at the character-list level with structural
recursions, so every definition evaluates by kernel reduction on concrete
inputs.
-/

set_option maxHeartbeats 1000000

namespace Rspass

/-- Error kinds of the vault engine, following the error taxonomy of the
design document (section 7) together with the argument-parsing failure
kinds used by the CLI validator. -/
inductive ErrKind : Type where
  | invalidPath
  | alreadyExists
  | notFound
  | noChange
  | malformedRecord
  | invalidSecret
  | notConfigured
  | encryptionFailure
  | transportFailure
  | ioFailure
  deriving DecidableEq

/-- Splits a character list at every occurrence of the character c.  The
result always has one more part than there are occurrences of c and parts
may be empty: this is the splitting scheme of the Rust method str.split
used by the program. -/
def splitOnCh (c : Char) : List Char → List (List Char)
  | [] => [[]]
  | a :: as =>
    match splitOnCh c as with
    | [] => [[]]
    | l :: ls => if a = c then [] :: l :: ls else (a :: l) :: ls

/-- Splits a character list at the first occurrence of the character c,
returning the parts before and after it; none when c does not occur.
This is Rust str.split_once. -/
def splitOnceCh (c : Char) : List Char → Option (List Char × List Char)
  | [] => none
  | a :: as =>
    if a = c then some ([], as)
    else (splitOnceCh c as).map fun p => (a :: p.1, p.2)

/-- Rust str.split_once("=") on a string. -/
def splitOnceEq (s : String) : Option (String × String) :=
  (splitOnceCh '=' s.data).map fun p => (p.1.asString, p.2.asString)

/-- Removes one trailing carriage return, as Rust str.lines does on every
line that was terminated by a line feed. -/
def stripCr (l : List Char) : List Char :=
  if l.getLast? = some '\r' then l.dropLast else l

/-- Rust str.lines: split at every line feed; a line that was terminated
by a line feed loses one trailing carriage return; a trailing empty
segment (from a trailing line feed, or from the empty string) is dropped;
the final segment, not terminated by a line feed, is kept verbatim. -/
def rustLines (s : String) : List String :=
  let parts := splitOnCh '\n' s.data
  match parts.getLast? with
  | none => []
  | some lastPart =>
    ((parts.dropLast.map stripCr) ++ if lastPart = [] then [] else [lastPart]).map
      List.asString

/-- Rust str.starts_with with a string pattern: raw string prefix test. -/
def rustStartsWith (s pat : String) : Bool :=
  pat.data.isPrefixOf s.data

/-- Rust value.split("/") on a string. -/
def splitOnSlash (s : String) : List String :=
  (splitOnCh '/' s.data).map List.asString

/-- Rust slice join with a separator. -/
def joinWith (sep : String) : List String → String
  | [] => ""
  | [x] => x
  | x :: xs => x ++ sep ++ joinWith sep xs

/-- Modelled from the spec: rspass_core (the record codec) is not among
the reviewed sources.  Section 4.2: the first line of the encoded record is
the secret verbatim (encoding fails with InvalidSecret when the secret
contains a line break) and every metadata pair follows as a line
key=value, in order. -/
def encodeRecord (secret : String) (metadata : List (String × String)) :
    Except ErrKind String :=
  if ('\n' : Char) ∈ secret.data then .error .invalidSecret
  else .ok (metadata.foldl (fun acc kv => acc ++ "\n" ++ kv.1 ++ "=" ++ kv.2) secret)

/-- Strips one trailing separator, as the VaultPath comparison rule
of the design document requires (section 3). -/
def stripTrailing (p : String) : String :=
  if p.data.getLast? = some '/' then p.data.dropLast.asString else p

/-- Modelled from the spec: rspass_core (the vault path model) is not
among the reviewed sources.  Section 3: a VaultPath is a sequence of
non-empty segments, with the segments "." and ".." forbidden, after one
trailing separator has been stripped. -/
def validVaultPath (p : String) : Bool :=
  (splitOnSlash (stripTrailing p)).all fun seg =>
    seg ≠ "" && seg ≠ "." && seg ≠ ".."

/-- The vault contents, path to decrypted record text.  The external
encryption engine is out of scope of the design (section 1); records are
modelled at the plaintext level, a read with the correct passphrase
returning exactly the text that was written. -/
abbrev Vault : Type := List (String × String)

/-- First entry stored at the given path, if any. -/
def lookupVault : Vault → String → Option String
  | [], _ => none
  | (p, t) :: rest, q => if p = q then some t else lookupVault rest q

/-- Modelled from the spec: rspass_core::insert_credential is not among
the reviewed sources.  Section 3 forbids malformed vault paths, and
section 4.3: insert fails with AlreadyExists when the path is already
occupied, otherwise builds a record from the secret and the metadata,
encodes it (section 4.2) and writes it as a new File. -/
def insert_credential (vault : Vault) (name : String) (password : String)
    (metadata : Option (List (String × String))) : Except ErrKind Vault :=
  if validVaultPath name then
    match lookupVault vault name with
    | some _ => .error .alreadyExists
    | none =>
      match encodeRecord password (metadata.getD []) with
      | .error e => .error e
      | .ok text => .ok ((name, text) :: vault)
  else .error .invalidPath

/-- Modelled from the spec: rspass_core::get_credential is not among the
reviewed sources.  Section 4.3: get fails with NotFound when the path
holds no File; otherwise it decrypts and returns the encoded full record
when full is true, and only the secret (the first line) otherwise. -/
def get_credential (vault : Vault) (name : String) (full : Bool) :
    Except ErrKind String :=
  match lookupVault vault name with
  | none => .error .notFound
  | some text => .ok (if full then text else (rustLines text).headD "")

/-- Outcome of running a fallible Rust function: a value, an error
returned to the caller, or a crash (a Rust panic, from an unchecked index
or unwrap). -/
inductive Outcome (α : Type) : Type where
  | ok : α → Outcome α
  | err : ErrKind → Outcome α
  | crash
  deriving DecidableEq

/-- The external version-control transport (out of scope of the design,
section 1), as response oracles for its three operations. -/
structure Transport : Type where
  addRemoteRes : String → Except ErrKind Unit
  fetchRes : String → String → Except ErrKind Unit
  pushRes : String → String → Except ErrKind Unit

/-- Observable transport calls made by the sync coordinator. -/
inductive TEvent : Type where
  | addRemote : String → TEvent
  | fetch : String → String → TEvent
  | push : String → String → TEvent
  deriving DecidableEq

/-- A transport whose operations all succeed. -/
def okT : Transport where
  addRemoteRes := fun _ => .ok ()
  fetchRes := fun _ _ => .ok ()
  pushRes := fun _ _ => .ok ()

/-- The reserved path of the sync bootstrap credential (src/sync.rs). -/
def GIT_CREDENTIAL : String := "config/rspass"

/-- Embeds get_git_credential of src/sync.rs: reads the reserved record
in full, collects its lines, takes the part after the first "=" of line
index 2 as the username (an unchecked unwrap after an unchecked index)
and line index 0 as the token. -/
def get_git_credential (vault : Vault) : Outcome (String × String) :=
  match get_credential vault GIT_CREDENTIAL true with
  | .error e => .err e
  | .ok credential =>
    let lines := rustLines credential
    match lines.get? 2 with
    | none => .crash
    | some line2 =>
      match splitOnceEq line2 with
      | none => .crash
      | some pr =>
        match lines.get? 0 with
        | none => .crash
        | some line0 => .ok (pr.2, line0)

/-- Embeds set_remote of src/sync.rs: inserts the reserved record with
the token as its secret and metadata uri then username, propagating any
insert failure unchanged, and only then registers the remote uri with
the transport.  The first component records the transport calls made. -/
def set_remote (tr : Transport) (vault : Vault) (username password uri : String) :
    List TEvent × Except ErrKind Vault :=
  match insert_credential vault GIT_CREDENTIAL password
      (some [("uri", uri), ("username", username)]) with
  | .error e => ([], .error e)
  | .ok vault2 =>
    match tr.addRemoteRes uri with
    | .error e => ([.addRemote uri], .error e)
    | .ok _ => ([.addRemote uri], .ok vault2)

/-- Embeds sync_data of src/sync.rs: reads the bootstrap credential, then
calls the transport fetch and, if it succeeded, push, propagating the
first failure.  The first component records the transport calls made. -/
def sync_data (tr : Transport) (vault : Vault) : List TEvent × Outcome Unit :=
  match get_git_credential vault with
  | .crash => ([], .crash)
  | .err e => ([], .err e)
  | .ok up =>
    match tr.fetchRes up.1 up.2 with
    | .error e => ([.fetch up.1 up.2], .err e)
    | .ok _ =>
      match tr.pushRes up.1 up.2 with
      | .error e => ([.fetch up.1 up.2, .push up.1 up.2], .err e)
      | .ok _ => ([.fetch up.1 up.2, .push up.1 up.2], .ok ())

/-- Embeds the CredentialItem enum of src/validators.rs: a vault entry
seen by the validator, a File or a Dir, carrying its path relative to the
vault root. -/
inductive CredentialItem : Type where
  | file : String → CredentialItem
  | dir : String → CredentialItem
  deriving DecidableEq

/-- Embeds CredentialItem::inner of src/validators.rs. -/
def CredentialItem.inner : CredentialItem → String
  | .file s => s
  | .dir s => s

/-- Embeds CredentialItem::is_dir of src/validators.rs. -/
def CredentialItem.isDirItem : CredentialItem → Bool
  | .dir _ => true
  | .file _ => false

/-- Embeds CredentialItem::matches of src/validators.rs: equality of the
carried path with the query. -/
def CredentialItem.matches (item : CredentialItem) (value : String) : Bool :=
  item.inner == value

/-- Failures of the argument validator of src/validators.rs: the clap
InvalidUtf8 error issued for non-text input (the InvalidPath boundary
failure of the design, section 4.1), and the clap InvalidValue error
issued on a mismatch, carrying the suggested items. -/
inductive ParseErr : Type where
  | invalidUtf8 : ParseErr
  | invalidValue : List CredentialItem → ParseErr
  deriving DecidableEq

/-- Embeds the normalization step of CredentialValuesParser::parse in
src/validators.rs: when the value ends with the separator, pop its last
character. -/
def normalizeQuery (value : String) : String :=
  if value.data.getLast? = some '/' then value.data.dropLast.asString else value

/-- Embeds CredentialValuesParser::filter_by_base of src/validators.rs:
split the value on the separator, join all parts except the last into the
base (none when there are no parts at all), and keep the items whose
inner path starts with the base, every item when there is no base. -/
def filter_by_base (items : List CredentialItem) (value : String) :
    List CredentialItem :=
  let parts := splitOnSlash value
  let base : Option String :=
    match parts.getLast? with
    | some _ => some (joinWith "/" parts.dropLast)
    | none => none
  items.filter fun item =>
    match base with
    | some b => rustStartsWith item.inner b
    | none => true

/-- Embeds CredentialValuesParser::parse of src/validators.rs.  The input
is none for an OsString that is not valid text (rejected as InvalidUtf8
before anything else); a text value is normalized, accepted exactly when
some snapshot item matches it, and otherwise rejected as InvalidValue
carrying the items filtered by its base. -/
def parse (items : List CredentialItem) (value : Option String) :
    Except ParseErr String :=
  match value with
  | none => .error .invalidUtf8
  | some raw =>
    let v := normalizeQuery raw
    if items.any fun item => item.matches v then .ok v
    else .error (.invalidValue (filter_by_base items v))

mutual
/-- A filesystem entry under the vault root: a file, or a directory with
its entries. -/
inductive FsTree : Type where
  | file : String → FsTree
  | dir : String → FsForest → FsTree
/-- The entries of a directory, in directory order. -/
inductive FsForest : Type where
  | nil : FsForest
  | cons : FsTree → FsForest → FsForest
end

mutual
/-- Contribution of one directory entry to list_credentials of
src/validators.rs: an entry whose path ends in the component .git is
skipped; a directory under the recursive flag contributes its own
recursive listing followed by its Dir item; any other entry contributes
its single item, with the path accumulated relative to the vault root. -/
def listEntry (recursive : Bool) : FsTree → String → List CredentialItem
  | .file n, pre => if n = ".git" then [] else [.file (pre ++ n)]
  | .dir n cs, pre =>
    if n = ".git" then []
    else if recursive then
      list_credentials recursive cs (pre ++ n ++ "/") ++ [.dir (pre ++ n)]
    else [.dir (pre ++ n)]
/-- Embeds list_credentials of src/validators.rs over the entries of the
directory being read, pre being the path of that directory relative to the
vault root ("" for the vault root itself): the concatenation, in
directory order, of the contribution of every entry. -/
def list_credentials (recursive : Bool) : FsForest → String → List CredentialItem
  | .nil, _ => []
  | .cons e rest, pre => listEntry recursive e pre ++ list_credentials recursive rest pre
end

/-- Membership of an entry in the entry list of a directory. -/
inductive ForestMem : FsTree → FsForest → Prop where
  | head (t : FsTree) (rest : FsForest) : ForestMem t (.cons t rest)
  | tail (t e : FsTree) (rest : FsForest) :
      ForestMem t rest → ForestMem t (.cons e rest)

/-- The items reachable from the entries of a directory while never entering
or naming an entry called .git: the claim-side description of what a
recursive listing enumerates, after the correction that the exclusion
applies at every depth. -/
inductive Reaches : FsForest → String → CredentialItem → Prop where
  | file (n : String) (f : FsForest) (pre : String) :
      ForestMem (.file n) f → n ≠ ".git" → Reaches f pre (.file (pre ++ n))
  | dir (n : String) (cs : FsForest) (f : FsForest) (pre : String) :
      ForestMem (.dir n cs) f → n ≠ ".git" → Reaches f pre (.dir (pre ++ n))
  | nested (n : String) (cs : FsForest) (f : FsForest) (pre : String)
      (i : CredentialItem) :
      ForestMem (.dir n cs) f → n ≠ ".git" →
      Reaches cs (pre ++ n ++ "/") i → Reaches f pre i

/-- The items transitively nested in the entries of a directory, with no
exclusion at all: the claim-side notion of a CredentialItem of the vault
tree, in which only the root version-control directory is special. -/
inductive NestedIn : FsForest → String → CredentialItem → Prop where
  | file (n : String) (f : FsForest) (pre : String) :
      ForestMem (.file n) f → NestedIn f pre (.file (pre ++ n))
  | dir (n : String) (cs : FsForest) (f : FsForest) (pre : String) :
      ForestMem (.dir n cs) f → NestedIn f pre (.dir (pre ++ n))
  | nested (n : String) (cs : FsForest) (f : FsForest) (pre : String)
      (i : CredentialItem) :
      ForestMem (.dir n cs) f →
      NestedIn cs (pre ++ n ++ "/") i → NestedIn f pre i

theorem asString_data (s : String) : s.data.asString = s := rfl

theorem data_asString (l : List Char) : l.asString.data = l := rfl

theorem splitOnCh_ne_nil (c : Char) (l : List Char) : splitOnCh c l ≠ [] := by
  cases l with
  | nil => simp [splitOnCh]
  | cons a as =>
    simp only [splitOnCh]
    cases h : splitOnCh c as with
    | nil => simp
    | cons x xs => by_cases hac : a = c <;> simp [hac]

theorem splitOnCh_cons_self (c : Char) (ys : List Char) :
    splitOnCh c (c :: ys) = [] :: splitOnCh c ys := by
  simp only [splitOnCh]
  cases h : splitOnCh c ys with
  | nil => exact absurd h (splitOnCh_ne_nil c ys)
  | cons l ls => simp

theorem splitOnCh_append {c : Char} {xs : List Char} (ys : List Char) (h : c ∉ xs) :
    splitOnCh c (xs ++ c :: ys) = xs :: splitOnCh c ys := by
  induction xs with
  | nil => simpa using splitOnCh_cons_self c ys
  | cons a as ih =>
    have ha : a ≠ c := fun he => h (he ▸ List.mem_cons_self a as)
    have h2 : c ∉ as := fun hm => h (List.mem_cons_of_mem a hm)
    simp only [List.cons_append, splitOnCh, List.append_eq, ih h2, ha, if_false]

theorem splitOnCh_of_not_mem {c : Char} {l : List Char} (h : c ∉ l) :
    splitOnCh c l = [l] := by
  induction l with
  | nil => rfl
  | cons a as ih =>
    have ha : a ≠ c := fun he => h (he ▸ List.mem_cons_self a as)
    have h2 : c ∉ as := fun hm => h (List.mem_cons_of_mem a hm)
    simp [splitOnCh, ih h2, ha]

theorem splitOnceCh_append {c : Char} {xs : List Char} (ys : List Char) (h : c ∉ xs) :
    splitOnceCh c (xs ++ c :: ys) = some (xs, ys) := by
  induction xs with
  | nil => simp [splitOnceCh]
  | cons a as ih =>
    have ha : a ≠ c := fun he => h (he ▸ List.mem_cons_self a as)
    have h2 : c ∉ as := fun hm => h (List.mem_cons_of_mem a hm)
    simp [splitOnceCh, ha, ih h2]

/-- Claim C9: the credential extraction of the sync coordinator is claimed
total — returning a value or an error, never aborting through an
unchecked operation — but get_git_credential of src/sync.rs crashes (a
Rust panic) both on a reserved record with fewer than three lines (the
unchecked index lines[2]) and on one whose third line contains no
equals sign (the unchecked unwrap of split_once). -/
theorem C9_extraction_crashes :
    get_git_credential [(GIT_CREDENTIAL, "tok\nuri=u")] = Outcome.crash
  ∧ get_git_credential [(GIT_CREDENTIAL, "tok\nuri=u\nnoequals")] = Outcome.crash :=
  ⟨rfl, rfl⟩

/-- Claim C10: suggestion filtering compares the base of the query with
the item paths as raw strings, not segment-wise: with snapshot ab/c and
rejected query a/x (base a), the item ab/c is suggested because the
string ab/c starts with the string a. -/
theorem C10_raw_base_comparison :
    parse [.file "ab/c"] (some "a/x")
        = .error (.invalidValue [.file "ab/c"])
  ∧ CredentialItem.file "ab/c" ∈ filter_by_base [.file "ab/c"] "a/x" :=
  ⟨rfl, by decide⟩

/-- Claim C5, counterexample: with the reserved path absent, sync_data
fails with the propagated NotFound kind of the vault read and not with
NotConfigured as claimed (and makes no transport call). -/
theorem C5_counterexample :
    sync_data okT [] = ([], Outcome.err ErrKind.notFound)
  ∧ ErrKind.notFound ≠ ErrKind.notConfigured :=
  ⟨rfl, by decide⟩

/-- Claim C5, amended: when the reserved sync-credential path holds no
record, sync fails with the NotFound error of the vault read, propagated
unchanged, and performs no transport call. -/
theorem C5_amended (tr : Transport) (vault : Vault)
    (habs : lookupVault vault GIT_CREDENTIAL = none) :
    sync_data tr vault = ([], Outcome.err ErrKind.notFound) := by
  simp [sync_data, get_git_credential, get_credential, habs]

/-- Witness for C5_amended at the empty vault. -/
theorem C5_amended_witness :
    sync_data okT [] = ([], Outcome.err ErrKind.notFound) :=
  C5_amended okT [] rfl

/-- Claim C1, counterexample: the bootstrap round-trip does not hold for
every username — a username containing a line break is stored across two
record lines, set_remote succeeds, and reading the record back yields a
truncated username. -/
theorem C1_counterexample :
    (set_remote okT [] "a\nb" "t" "u").2
        = Except.ok [(GIT_CREDENTIAL, "t\nuri=u\nusername=a\nb")]
  ∧ get_git_credential [(GIT_CREDENTIAL, "t\nuri=u\nusername=a\nb")]
        = Outcome.ok ("a", "t")
  ∧ ("a", "t") ≠ ("a\nb", "t") :=
  ⟨rfl, rfl, by decide⟩

theorem data_nl : "\n".data = ['\n'] := rfl

theorem data_eqs : "=".data = ['='] := rfl

/-- Claim C1, amended: for every username, token and uri such that the
username and the uri contain no line break and the token does not end in
a carriage return, after a successful set_remote the reserved record read
back as sync reads it yields exactly the pair (username, token). -/
theorem C1_amended (tr : Transport) (vault : Vault) (username token uri : String)
    (hu : ('\n' : Char) ∉ username.data) (hr : ('\n' : Char) ∉ uri.data)
    (htok : token.data.getLast? ≠ some '\r')
    (v2 : Vault) (hset : (set_remote tr vault username token uri).2 = Except.ok v2) :
    get_git_credential v2 = Outcome.ok (username, token) := by
  simp only [set_remote] at hset
  cases hins : insert_credential vault GIT_CREDENTIAL token
      (some [("uri", uri), ("username", username)]) with
  | error e => rw [hins] at hset; simp at hset
  | ok w =>
    rw [hins] at hset
    cases har : tr.addRemoteRes uri with
    | error e => rw [har] at hset; simp at hset
    | ok u =>
      rw [har] at hset
      simp only [Except.ok.injEq] at hset
      subst hset
      simp only [insert_credential] at hins
      rw [if_pos (show validVaultPath GIT_CREDENTIAL = true from rfl)] at hins
      cases hlook : lookupVault vault GIT_CREDENTIAL with
      | some t => rw [hlook] at hins; simp at hins
      | none =>
        rw [hlook] at hins
        by_cases hnl : ('\n' : Char) ∈ token.data
        · simp [encodeRecord, hnl] at hins
        · simp only [encodeRecord, hnl, Option.getD, List.foldl] at hins
          simp only [if_false, Except.ok.injEq] at hins
          subst hins
          have h2 : ('\n' : Char) ∉ "uri".data ++ '=' :: uri.data := by
            intro hm
            rcases List.mem_append.mp hm with hx | hx
            · exact absurd hx (by decide)
            · rcases List.mem_cons.mp hx with hx | hx
              · exact absurd hx (by decide)
              · exact hr hx
          have h3 : ('\n' : Char) ∉ "username".data ++ '=' :: username.data := by
            intro hm
            rcases List.mem_append.mp hm with hx | hx
            · exact absurd hx (by decide)
            · rcases List.mem_cons.mp hx with hx | hx
              · exact absurd hx (by decide)
              · exact hu hx
          have hdata :
              (token ++ "\n" ++ "uri" ++ "=" ++ uri ++ "\n" ++ "username" ++ "=" ++ username).data
                = token.data ++ '\n' ::
                    (("uri".data ++ '=' :: uri.data) ++ '\n' ::
                      ("username".data ++ '=' :: username.data)) := by
            simp [String.data_append, data_nl, data_eqs]
          have hsplit :
              splitOnCh '\n'
                  (token ++ "\n" ++ "uri" ++ "=" ++ uri ++ "\n" ++ "username" ++ "=" ++ username).data
                = [token.data, "uri".data ++ '=' :: uri.data,
                    "username".data ++ '=' :: username.data] := by
            rw [hdata, splitOnCh_append _ hnl, splitOnCh_append _ h2,
              splitOnCh_of_not_mem h3]
          have hne : ("username".data ++ '=' :: username.data) ≠ [] := by simp
          have hlines :
              rustLines
                  (token ++ "\n" ++ "uri" ++ "=" ++ uri ++ "\n" ++ "username" ++ "=" ++ username)
                = [token, (stripCr ("uri".data ++ '=' :: uri.data)).asString,
                    ("username".data ++ '=' :: username.data).asString] := by
            simp only [rustLines, hsplit, List.getLast?, List.dropLast, List.map, hne,
              if_neg, List.append_nil, List.cons_append, List.nil_append]
            rw [show stripCr token.data = token.data from by simp [stripCr, htok]]
            simp [asString_data]
          simp only [get_git_credential, get_credential, lookupVault, if_pos, hlines,
            List.get?, splitOnceEq, data_asString]
          rw [splitOnceCh_append _ (by decide : ('=' : Char) ∉ "username".data)]
          simp [asString_data]

/-- Witness for C1_amended at username alice, token tok, uri u on the
empty vault. -/
theorem C1_amended_witness :
    get_git_credential [(GIT_CREDENTIAL, "tok\nuri=u\nusername=alice")]
      = Outcome.ok ("alice", "tok") :=
  C1_amended okT [] "alice" "tok" "u" (by decide) (by decide) (by decide)
    [(GIT_CREDENTIAL, "tok\nuri=u\nusername=alice")] rfl

theorem insert_ok_shape {vault : Vault} {name password : String}
    {md : Option (List (String × String))} {w : Vault}
    (h : insert_credential vault name password md = Except.ok w) :
    ∃ text, w = (name, text) :: vault
      ∧ encodeRecord password (md.getD []) = Except.ok text := by
  simp only [insert_credential] at h
  by_cases hv : validVaultPath name = true
  · rw [if_pos hv] at h
    cases hlook : lookupVault vault name with
    | some t => rw [hlook] at h; simp at h
    | none =>
      rw [hlook] at h
      cases henc : encodeRecord password (md.getD []) with
      | error e => rw [henc] at h; simp at h
      | ok text =>
        rw [henc] at h
        simp only [Except.ok.injEq] at h
        exact ⟨text, h.symm, rfl⟩
  · rw [if_neg hv] at h
    simp at h

/-- Claim C6: set_remote inserts the reserved record with the token as
its secret and metadata holding uri and username; an occupied reserved
path yields AlreadyExists; the remote is registered with the transport
only after a successful insert, and any insert failure is returned
unchanged with no transport call. -/
theorem C6_set_remote (tr : Transport) (vault : Vault) (username token uri : String) :
    ((∃ t, lookupVault vault GIT_CREDENTIAL = some t) →
      set_remote tr vault username token uri = ([], Except.error ErrKind.alreadyExists))
  ∧ (∀ e, insert_credential vault GIT_CREDENTIAL token
        (some [("uri", uri), ("username", username)]) = Except.error e →
      set_remote tr vault username token uri = ([], Except.error e))
  ∧ (∀ w, insert_credential vault GIT_CREDENTIAL token
        (some [("uri", uri), ("username", username)]) = Except.ok w →
      (set_remote tr vault username token uri).1 = [TEvent.addRemote uri])
  ∧ (∀ v2, (set_remote tr vault username token uri).2 = Except.ok v2 →
      ∃ text, v2 = (GIT_CREDENTIAL, text) :: vault
        ∧ encodeRecord token [("uri", uri), ("username", username)] = Except.ok text) := by
  refine ⟨?_, ?_, ?_, ?_⟩
  · rintro ⟨t, ht⟩
    have hins : insert_credential vault GIT_CREDENTIAL token
        (some [("uri", uri), ("username", username)]) = Except.error ErrKind.alreadyExists := by
      simp only [insert_credential]
      rw [if_pos (show validVaultPath GIT_CREDENTIAL = true from rfl), ht]
    simp [set_remote, hins]
  · intro e he
    simp [set_remote, he]
  · intro w hw
    simp only [set_remote]
    rw [hw]
    cases har : tr.addRemoteRes uri <;> simp [har]
  · intro v2 h2
    simp only [set_remote] at h2
    cases hins : insert_credential vault GIT_CREDENTIAL token
        (some [("uri", uri), ("username", username)]) with
    | error e => rw [hins] at h2; simp at h2
    | ok w =>
      rw [hins] at h2
      cases har : tr.addRemoteRes uri with
      | error e => rw [har] at h2; simp at h2
      | ok u =>
        rw [har] at h2
        simp only [Except.ok.injEq] at h2
        subst h2
        rcases insert_ok_shape hins with ⟨text, hw, henc⟩
        exact ⟨text, hw, by simpa using henc⟩

/-- Witness for C6_set_remote: on a vault whose reserved path is
occupied, set_remote fails with AlreadyExists and calls no transport
operation. -/
theorem C6_set_remote_witness :
    set_remote okT [("config/rspass", "x")] "u" "t" "r"
      = ([], Except.error ErrKind.alreadyExists) :=
  (C6_set_remote okT [("config/rspass", "x")] "u" "t" "r").1 ⟨"x", rfl⟩

/-- Claim C2: the parse step of the validator strips one trailing separator, then
accepts — returning the normalized query — exactly when the path of some
snapshot item equals the normalized query; a mismatch is reported as the
suggestion-carrying InvalidValue error, never as the non-text boundary
error (clap InvalidUtf8, the InvalidPath of the design), which only non-text
input receives. -/
theorem C2_parse_exact (items : List CredentialItem) (s : String) :
    (parse items (some s) = Except.ok (normalizeQuery s)
        ∨ ∃ sugg, parse items (some s) = Except.error (.invalidValue sugg))
  ∧ (parse items (some s) = Except.ok (normalizeQuery s)
        ↔ normalizeQuery s ∈ items.map CredentialItem.inner)
  ∧ parse items none = Except.error ParseErr.invalidUtf8 := by
  refine ⟨?_, ⟨?_, ?_⟩, rfl⟩
  · by_cases h : (items.any fun item => item.matches (normalizeQuery s)) = true
    · left; simp [parse, h]
    · right
      refine ⟨filter_by_base items (normalizeQuery s), ?_⟩
      simp [parse, h]
  · intro hok
    by_cases h : (items.any fun item => item.matches (normalizeQuery s)) = true
    · rcases List.any_eq_true.mp h with ⟨item, hmem, hmatch⟩
      have hi : item.inner = normalizeQuery s := by
        simpa [CredentialItem.matches] using hmatch
      exact List.mem_map.mpr ⟨item, hmem, hi⟩
    · simp [parse, h] at hok
  · intro hmem
    rcases List.mem_map.mp hmem with ⟨item, hmem2, hinner⟩
    have h : (items.any fun item => item.matches (normalizeQuery s)) = true :=
      List.any_eq_true.mpr ⟨item, hmem2, by simp [CredentialItem.matches, hinner]⟩
    simp [parse, h]

/-- Witness for C2_parse_exact: non-text input is rejected as the
boundary error. -/
theorem C2_parse_exact_witness :
    parse [CredentialItem.file "a"] none = Except.error ParseErr.invalidUtf8 :=
  (C2_parse_exact [CredentialItem.file "a"] "q").2.2

theorem isPrefixOfNilLeft (l : List Char) : List.isPrefixOf ([] : List Char) l = true := by
  cases l <;> rfl

/-- Claim C3: the suggestions attached to a rejected query are exactly
the snapshot items whose path starts with the base of the query — all
segments but the last, joined by the separator — with every item a
candidate when the query has a single segment; in particular with items
a/b, a/c and d, the query a/x suggests a/b and a/c and excludes d. -/
theorem C3_suggestion_scope (items : List CredentialItem) (q : String) :
    (∀ sugg, parse items (some q) = Except.error (ParseErr.invalidValue sugg) →
      sugg = filter_by_base items (normalizeQuery q))
  ∧ filter_by_base items q
      = (items.filter fun i =>
          rustStartsWith i.inner (joinWith "/" (splitOnSlash q).dropLast))
  ∧ ((splitOnSlash q).length = 1 → filter_by_base items q = items)
  ∧ filter_by_base [.file "a/b", .file "a/c", .file "d"] "a/x"
      = [.file "a/b", .file "a/c"] := by
  refine ⟨?_, ?_, ?_, rfl⟩
  · intro sugg h
    by_cases hm : (items.any fun item => item.matches (normalizeQuery q)) = true
    · simp [parse, hm] at h
    · simp only [parse, hm, if_false, Bool.false_eq_true, if_neg,
        Except.error.injEq, ParseErr.invalidValue.injEq] at h
      exact h.symm
  · simp only [filter_by_base]
    cases hp : splitOnSlash q with
    | nil =>
      simp only [List.getLast?, List.dropLast]
      apply List.filter_congr
      intro i hi
      simp [rustStartsWith, isPrefixOfNilLeft, joinWith]
    | cons a as =>
      simp only [List.getLast?]
  · intro hlen
    cases hp : splitOnSlash q with
    | nil => rw [hp] at hlen; simp at hlen
    | cons a as =>
      cases as with
      | cons b bs => rw [hp] at hlen; simp at hlen
      | nil =>
        simp only [filter_by_base, hp, List.getLast?, List.dropLast]
        apply List.filter_eq_self.mpr
        intro i hi
        simp [rustStartsWith, isPrefixOfNilLeft, joinWith]

/-- Witness for C3_suggestion_scope: a single-segment query keeps the
whole snapshot as candidates. -/
theorem C3_suggestion_scope_witness :
    filter_by_base [CredentialItem.file "x"] "solo" = [CredentialItem.file "x"] :=
  (C3_suggestion_scope [CredentialItem.file "x"] "solo").2.2.1 (by decide)

/-- Claim C4: sync invokes fetch and then push in that order; push is
never invoked unless fetch succeeded; the first transport failure aborts
the sequence at once, is surfaced as an error, and a partial sync (fetch
succeeded, push failed) performs no compensating transport call. -/
theorem C4_fetch_then_push (tr : Transport) (vault : Vault) :
    ((sync_data tr vault).1 = [] ∧ (sync_data tr vault).2 ≠ Outcome.ok ())
  ∨ ∃ u p, get_git_credential vault = Outcome.ok (u, p)
      ∧ ((∃ e, tr.fetchRes u p = Except.error e
            ∧ sync_data tr vault = ([TEvent.fetch u p], Outcome.err e))
        ∨ (tr.fetchRes u p = Except.ok ()
            ∧ (sync_data tr vault).1 = [TEvent.fetch u p, TEvent.push u p]
            ∧ ((∃ e, tr.pushRes u p = Except.error e
                  ∧ (sync_data tr vault).2 = Outcome.err e)
              ∨ (tr.pushRes u p = Except.ok ()
                  ∧ (sync_data tr vault).2 = Outcome.ok ())))) := by
  cases hg : get_git_credential vault with
  | crash => left; simp [sync_data, hg]
  | err e => left; simp [sync_data, hg]
  | ok up =>
    right
    refine ⟨up.1, up.2, by simp [hg], ?_⟩
    cases hf : tr.fetchRes up.1 up.2 with
    | error e => left; exact ⟨e, rfl, by simp [sync_data, hg, hf]⟩
    | ok u0 =>
      cases u0
      right
      refine ⟨rfl, ?_, ?_⟩
      · cases hp0 : tr.pushRes up.1 up.2 <;> simp [sync_data, hg, hf, hp0]
      cases hp : tr.pushRes up.1 up.2 with
      | error e => left; exact ⟨e, rfl, by simp [sync_data, hg, hf, hp]⟩
      | ok u1 =>
        cases u1
        right
        exact ⟨rfl, by simp [sync_data, hg, hf, hp]⟩

/-- Claim C8: a path argument with an empty, dot or dot-dot segment is
rejected by the vault layer with InvalidPath and never reaches a vault
mutation as a valid VaultPath. -/
theorem C8_bad_path_rejected (vault : Vault) (name password : String)
    (md : Option (List (String × String))) (seg : String)
    (hseg : seg ∈ splitOnSlash (stripTrailing name))
    (hbad : seg = "" ∨ seg = "." ∨ seg = "..") :
    insert_credential vault name password md = Except.error ErrKind.invalidPath := by
  have hv : validVaultPath name = false := by
    have hnot : ¬ validVaultPath name = true := by
      intro hall
      have hseg2 := List.all_eq_true.mp hall seg hseg
      rcases hbad with h | h | h <;> subst h <;> simp at hseg2
    exact Bool.eq_false_iff.mpr hnot
  simp [insert_credential, hv]

/-- Witness for C8_bad_path_rejected at the path ../x. -/
theorem C8_bad_path_rejected_witness :
    insert_credential [] "../x" "s" none = Except.error ErrKind.invalidPath :=
  C8_bad_path_rejected [] "../x" "s" none ".." (by decide) (by decide)

theorem reaches_weaken {rest : FsForest} {pre : String} {i : CredentialItem}
    (e : FsTree) (h : Reaches rest pre i) : Reaches (.cons e rest) pre i := by
  cases h with
  | file n f pre hm hn => exact .file n _ pre (.tail _ _ _ hm) hn
  | dir n cs f pre hm hn => exact .dir n cs _ pre (.tail _ _ _ hm) hn
  | nested n cs f pre i hm hn hr => exact .nested n cs _ pre i (.tail _ _ _ hm) hn hr

theorem listedReaches : ∀ (f : FsForest) (pre : String) (i : CredentialItem),
    i ∈ list_credentials true f pre → Reaches f pre i
  | .nil, pre, i, h => by simp [list_credentials] at h
  | .cons (.file n) rest, pre, i, h => by
    simp only [list_credentials, listEntry] at h
    rcases List.mem_append.mp h with h1 | h2
    · by_cases hn : n = ".git"
      · simp [hn] at h1
      · simp only [hn, if_false, List.mem_singleton] at h1
        subst h1
        exact Reaches.file n _ pre (.head ..) hn
    · exact reaches_weaken _ (listedReaches rest pre i h2)
  | .cons (.dir n cs) rest, pre, i, h => by
    simp only [list_credentials, listEntry] at h
    rcases List.mem_append.mp h with h1 | h2
    · by_cases hn : n = ".git"
      · simp [hn] at h1
      · simp only [hn, if_false, if_true] at h1
        rcases List.mem_append.mp h1 with h3 | h4
        · exact Reaches.nested n cs _ pre i (.head ..) hn
            (listedReaches cs (pre ++ n ++ "/") i h3)
        · simp only [List.mem_singleton] at h4
          subst h4
          exact Reaches.dir n cs _ pre (.head ..) hn
    · exact reaches_weaken _ (listedReaches rest pre i h2)

theorem entryMemListed {t : FsTree} {f : FsForest} (hm : ForestMem t f) :
    ∀ {pre : String} {i : CredentialItem},
      i ∈ listEntry true t pre → i ∈ list_credentials true f pre := by
  induction hm with
  | head rest =>
    intro pre i h
    simp only [list_credentials]
    exact List.mem_append.mpr (Or.inl h)
  | tail e rest hm2 ih =>
    intro pre i h
    simp only [list_credentials]
    exact List.mem_append.mpr (Or.inr (ih h))

theorem reachesListed {f : FsForest} {pre : String} {i : CredentialItem}
    (h : Reaches f pre i) : i ∈ list_credentials true f pre := by
  induction h with
  | file n f pre hm hn => exact entryMemListed hm (by simp [listEntry, hn])
  | dir n cs f pre hm hn => exact entryMemListed hm (by simp [listEntry, hn])
  | nested n cs f pre i hm hn hr ih =>
    refine entryMemListed hm ?_
    simp only [listEntry, hn, if_false, if_true]
    exact List.mem_append.mpr (Or.inl ih)

theorem listFalseMem : ∀ (f : FsForest) (pre : String) (i : CredentialItem),
    i ∈ list_credentials false f pre ↔
      ((∃ n, ForestMem (.file n) f ∧ n ≠ ".git" ∧ i = .file (pre ++ n))
        ∨ (∃ n cs, ForestMem (.dir n cs) f ∧ n ≠ ".git" ∧ i = .dir (pre ++ n)))
  | .nil, pre, i => by
    constructor
    · intro h; simp [list_credentials] at h
    · rintro (⟨n, hm, _, _⟩ | ⟨n, cs, hm, _, _⟩) <;> cases hm
  | .cons e rest, pre, i => by
    have ih := listFalseMem rest pre i
    simp only [list_credentials]
    rw [List.mem_append]
    constructor
    · rintro (h1 | h2)
      · cases e with
        | file n =>
          by_cases hn : n = ".git"
          · simp [listEntry, hn] at h1
          · simp only [listEntry, hn, if_false, List.mem_singleton] at h1
            exact Or.inl ⟨n, .head .., hn, h1⟩
        | dir n cs =>
          by_cases hn : n = ".git"
          · simp [listEntry, hn] at h1
          · simp only [listEntry, hn, if_false, Bool.false_eq_true,
              List.mem_singleton] at h1
            exact Or.inr ⟨n, cs, .head .., hn, h1⟩
      · rcases ih.mp h2 with ⟨n, hm, hn, he⟩ | ⟨n, cs, hm, hn, he⟩
        · exact Or.inl ⟨n, .tail _ _ _ hm, hn, he⟩
        · exact Or.inr ⟨n, cs, .tail _ _ _ hm, hn, he⟩
    · rintro (⟨n, hm, hn, he⟩ | ⟨n, cs, hm, hn, he⟩)
      · cases hm with
        | head => left; simp [listEntry, hn, he]
        | tail _ _ hm2 => right; exact ih.mpr (Or.inl ⟨n, hm2, hn, he⟩)
      · cases hm with
        | head => left; simp [listEntry, hn, he]
        | tail _ _ hm2 => right; exact ih.mpr (Or.inr ⟨n, cs, hm2, hn, he⟩)

theorem slash_mem_extended (n s2 : String) :
    ('/' : Char) ∈ (n ++ "/" ++ s2).data := by
  simp [String.data_append]

theorem extended_ne_git (n s2 : String) : n ++ "/" ++ s2 ≠ ".git" := by
  intro he
  have hm := slash_mem_extended n s2
  rw [he] at hm
  exact absurd hm (by decide)

theorem listedInnerShape : ∀ (r : Bool) (f : FsForest) (pre : String)
    (i : CredentialItem), i ∈ list_credentials r f pre →
      ∃ s, i.inner = pre ++ s ∧ s ≠ ".git"
  | r, .nil, pre, i, h => by simp [list_credentials] at h
  | r, .cons (.file n) rest, pre, i, h => by
    simp only [list_credentials, listEntry] at h
    rcases List.mem_append.mp h with h1 | h2
    · by_cases hn : n = ".git"
      · simp [hn] at h1
      · simp only [hn, if_false, List.mem_singleton] at h1
        subst h1
        exact ⟨n, rfl, hn⟩
    · exact listedInnerShape r rest pre i h2
  | r, .cons (.dir n cs) rest, pre, i, h => by
    simp only [list_credentials, listEntry] at h
    rcases List.mem_append.mp h with h1 | h2
    · by_cases hn : n = ".git"
      · simp [hn] at h1
      · cases r with
        | false =>
          simp only [hn, if_false, Bool.false_eq_true, List.mem_singleton] at h1
          subst h1
          exact ⟨n, rfl, hn⟩
        | true =>
          simp only [hn, if_false, if_true] at h1
          rcases List.mem_append.mp h1 with h3 | h4
          · rcases listedInnerShape true cs (pre ++ n ++ "/") i h3 with ⟨s2, hs, _⟩
            refine ⟨n ++ "/" ++ s2, ?_, extended_ne_git n s2⟩
            rw [hs, String.append_assoc, String.append_assoc, String.append_assoc]
          · simp only [List.mem_singleton] at h4
            subst h4
            exact ⟨n, rfl, hn⟩
    · exact listedInnerShape r rest pre i h2

/-- Claim C7, counterexample: a directory entry named .git nested below
the vault root is a transitively nested CredentialItem distinct from the
reserved root version-control directory, yet the recursive listing omits
it — the exclusion in list_credentials of src/validators.rs applies to
every path ending in the component .git, not only to the reserved root
directory. -/
theorem C7_counterexample :
    NestedIn (FsForest.cons (FsTree.dir "a" (FsForest.cons (FsTree.dir ".git"
          (FsForest.cons (FsTree.file "x") .nil)) .nil)) .nil) ""
        (CredentialItem.dir "a/.git")
  ∧ CredentialItem.dir "a/.git" ≠ CredentialItem.dir ".git"
  ∧ CredentialItem.dir "a/.git"
      ∉ list_credentials true (FsForest.cons (FsTree.dir "a" (FsForest.cons
          (FsTree.dir ".git" (FsForest.cons (FsTree.file "x") .nil)) .nil)) .nil) "" := by
  refine ⟨?_, by decide, by decide⟩
  have h1 : NestedIn (FsForest.cons (FsTree.dir ".git"
        (FsForest.cons (FsTree.file "x") .nil)) .nil) ("" ++ "a" ++ "/")
      (CredentialItem.dir (("" ++ "a" ++ "/") ++ ".git")) :=
    NestedIn.dir ".git" _ _ _ (.head ..)
  have h2 : NestedIn (FsForest.cons (FsTree.dir "a" (FsForest.cons (FsTree.dir ".git"
        (FsForest.cons (FsTree.file "x") .nil)) .nil)) .nil) ""
      (CredentialItem.dir (("" ++ "a" ++ "/") ++ ".git")) :=
    NestedIn.nested "a" _ _ "" _ (.head ..) h1
  exact (show (("" ++ "a" ++ "/") ++ ".git") = "a/.git" from rfl) ▸ h2

/-- Claim C7, amended: the recursive listing enumerates exactly the items
reachable without touching an entry named .git at any depth (and the
non-recursive one exactly the immediate entries not named .git), so in
particular the reserved version-control directory of the vault root never
appears in any listing; the exclusion however applies to every entry
named .git, not only to the reserved root one. -/
theorem C7_amended (f : FsForest) (pre : String) :
    (∀ i, i ∈ list_credentials true f pre ↔ Reaches f pre i)
  ∧ (∀ i, i ∈ list_credentials false f pre ↔
      ((∃ n, ForestMem (.file n) f ∧ n ≠ ".git" ∧ i = .file (pre ++ n))
        ∨ (∃ n cs, ForestMem (.dir n cs) f ∧ n ≠ ".git" ∧ i = .dir (pre ++ n))))
  ∧ (∀ (r : Bool) (i : CredentialItem), i ∈ list_credentials r f "" →
      CredentialItem.inner i ≠ ".git") := by
  refine ⟨fun i => ⟨listedReaches f pre i, reachesListed⟩,
    fun i => listFalseMem f pre i, ?_⟩
  intro r i h
  rcases listedInnerShape r f "" i h with ⟨s, hs, hne⟩
  rw [hs]
  have : "" ++ s = s := by
    cases s with
    | mk data => rfl
  rw [this]
  exact hne

/-- Witness for C7_amended: the single file a is listed recursively at
the root and is reachable. -/
theorem C7_amended_witness :
    Reaches (FsForest.cons (FsTree.file "a") .nil) "" (CredentialItem.file "a") :=
  ((C7_amended (FsForest.cons (FsTree.file "a") .nil) "").1
    (CredentialItem.file "a")).mp (by decide)

end Rspass
